import Mathlib

/-
Verification of the dependency-graph visualizer (stage 4, `comit_4.py`).

The definitions below are a shallow embedding of the program's core:

* `should_skip_package`        — filter check (comit_4.py lines 489-493)
* `load_test_repository`       — plain-text fixture parser (lines 325-348)
* `get_package_dependencies`   — fixture lookup (lines 350-352)
* `get_dependencies`           — fallible per-node lookup, failures
                                 degraded to an empty list (lines 509-528)
* `bfsCore`                    — the recursive traversal shared verbatim by
                                 `bfs_build_dependency_graph` (lines 569-609)
                                 and `bfs_build_reverse_dependency_graph`
                                 (lines 611-651); the two differ only in
                                 where the per-node list comes from
* `build_reverse_dependencies` — reverse-index inversion (lines 558-561)
* `build_complete_dependency_graph` / `run` — the reverse-mode pipeline and
                                 the mode dispatch of `run` (lines 530-567,
                                 739-784)
* `calculate_dependency_level` — level analysis (lines 726-737)

Python dicts are modelled as insertion-ordered association lists
(`Graph`), recursion is made total with an explicit fuel argument, and
exceptions are modelled with `Option`/`Except`.
-/

namespace DepViz

abbrev Name := String

/-- Insertion-ordered association list standing in for a Python dict
mapping package names to their dependency lists. -/
abbrev Graph := List (Name × List Name)

/-- First-match lookup, i.e. `dict.__getitem__` / `dict.get`. -/
def lookupG : Graph → Name → Option (List Name)
  | [], _ => none
  | p :: rest, k => if p.1 = k then some p.2 else lookupG rest k

/-- `dict.get(k, [])`. -/
def lookupD (g : Graph) (k : Name) : List Name :=
  (lookupG g k).getD []

/-- The key list of the dict, in insertion order. -/
def graphKeys (g : Graph) : List Name :=
  g.map (fun p => p.1)

/-- `dict[k] = v`: replace in place if the key exists, else append. -/
def setEntry : Graph → Name → List Name → Graph
  | [], k, v => [(k, v)]
  | p :: rest, k, v => if p.1 = k then (k, v) :: rest else p :: setEntry rest k v

/-- `defaultdict(list); d[k].append(v)`. -/
def appendEntry : Graph → Name → Name → Graph
  | [], k, v => [(k, [v])]
  | p :: rest, k, v =>
    if p.1 = k then (p.1, p.2 ++ [v]) :: rest else p :: appendEntry rest k v

/-- Python's substring test `needle in hay`, over character lists. -/
def substrOccurs (needle hay : List Char) : Bool :=
  (List.range (hay.length + 1)).any
    (fun i => needle.isPrefixOf (hay.drop i))

/-- Python `str.lower()`. -/
def lowerChars (l : List Char) : List Char :=
  l.map Char.toLower

/-- `should_skip_package` (comit_4.py lines 489-493): skip when a filter is
set (truthy) and the lower-cased package name contains the lower-cased
filter substring. -/
def should_skip_package (filter_substring : Option Name) (package_name : Name) : Bool :=
  match filter_substring with
  | none => false
  | some f =>
    if f = "" then false
    else substrOccurs (lowerChars f.data) (lowerChars package_name.data)

/-- `self.config.max_depth and current_depth >= self.config.max_depth`
(lines 575, 617): `None` and `0` are falsy. -/
def depth_limit_reached (max_depth : Option Nat) (current_depth : Nat) : Bool :=
  match max_depth with
  | none => false
  | some d => if d = 0 then false else decide (d ≤ current_depth)

/-- Python `str.split(c)` for a single-character separator (empty fields
kept). -/
def splitChar (c : Char) : List Char → List (List Char)
  | [] => [[]]
  | x :: xs =>
    match splitChar c xs with
    | [] => [[]]
    | ys :: rest => if x = c then [] :: ys :: rest else (x :: ys) :: rest

/-- Python `str.split("->")`: leftmost, non-overlapping occurrences of the
two-character arrow separate the fields (empty fields kept). -/
def splitArrow : List Char → List (List Char)
  | [] => [[]]
  | [x] => [[x]]
  | x :: y :: xs =>
    if x = '-' ∧ y = '>' then [] :: splitArrow xs
    else
      match splitArrow (y :: xs) with
      | [] => [[x]]
      | ys :: rest => (x :: ys) :: rest

def dropWhileWs : List Char → List Char
  | [] => []
  | c :: cs => if c.isWhitespace then dropWhileWs cs else c :: cs

/-- Python `str.strip()`: drop leading and trailing whitespace. -/
def trimChars (l : List Char) : List Char :=
  (dropWhileWs ((dropWhileWs l).reverse)).reverse

def splitWsAux : List Char → List Char → List (List Char)
  | cur, [] => if cur.isEmpty then [] else [cur.reverse]
  | cur, c :: cs =>
    if c.isWhitespace then
      if cur.isEmpty then splitWsAux [] cs else cur.reverse :: splitWsAux [] cs
    else splitWsAux (c :: cur) cs

/-- Python `str.split()` with no argument: split on whitespace runs,
dropping empty tokens. -/
def splitWsChars (l : List Char) : List (List Char) :=
  splitWsAux [] l

/-- `TestRepository.load_test_repository` (lines 325-348): each line of the
form `NAME -> DEP1 DEP2 ...` (exactly one `->`) adds an entry; the last
occurrence of a name wins. -/
def load_test_repository (content : String) : Graph :=
  (splitChar '\n' (trimChars content.data)).foldl
    (fun g line =>
      match splitArrow (trimChars line) with
      | [lhs, rhs] =>
        setEntry g (String.mk (trimChars lhs))
          (((splitWsChars rhs).map (fun t => String.mk (trimChars t))).filter
            (fun t => t ≠ ""))
      | _ => g)
    []

/-- `TestRepository.get_package_dependencies` (lines 350-352):
`self.dependency_graph.get(package_name, [])`. -/
def get_package_dependencies (repo : Graph) (package_name : Name) : List Name :=
  lookupD repo package_name

/-- A fixture-backed source never fails a lookup. -/
def test_repo_source (repo : Graph) : Name → Option (List Name) :=
  fun n => some (get_package_dependencies repo n)

/-- `get_dependencies` (lines 509-528): a raising source (`none`) is caught
and reported, and the node is treated as having zero dependencies. -/
def get_dependencies (src : Name → Option (List Name)) (package_name : Name) : List Name :=
  match src package_name with
  | some deps => deps
  | none => []

/-- The traversal-relevant configuration fields. -/
structure BuildConfig where
  max_depth : Option Nat
  filter_substring : Option Name
deriving DecidableEq

/-- The mutable visualizer state owned by the traversal:
`self.dependency_graph`, `self.visited_packages`, `self.cycle_detected`. -/
structure BfsState where
  graph : Graph
  visited : List Name
  cycle_detected : Bool
deriving DecidableEq

/-- Fresh state created by `DependencyVisualizer.__init__`. -/
def initial_state : BfsState := ⟨[], [], false⟩

/-- The traversal skeleton shared by `bfs_build_dependency_graph`
(lines 569-609) and `bfs_build_reverse_dependency_graph` (lines 611-651):
depth guard, path-local cycle check, filter check, visited check, then
record the node's list and recurse into each of its elements.  `fuel`
makes the recursion total; with it exhausted the branch is abandoned. -/
def bfsCore (depsOf : Name → List Name) (cfg : BuildConfig) :
    Nat → BfsState → Name → Nat → List Name → BfsState
  | 0, st, _, _, _ => st
  | fuel + 1, st, pkg, depth, path =>
    if depth_limit_reached cfg.max_depth depth then st
    else if pkg ∈ path then ⟨st.graph, st.visited, true⟩
    else if should_skip_package cfg.filter_substring pkg then st
    else if pkg ∈ st.visited then st
    else
      (depsOf pkg).foldl
        (fun acc d2 => bfsCore depsOf cfg fuel acc d2 (depth + 1) (path ++ [pkg]))
        ⟨setEntry st.graph pkg (depsOf pkg), pkg :: st.visited, st.cycle_detected⟩

/-- `bfs_build_dependency_graph` (lines 569-609): forward traversal, the
per-node list comes from `get_dependencies`. -/
def bfs_build_dependency_graph (src : Name → Option (List Name)) (cfg : BuildConfig)
    (fuel : Nat) (st : BfsState) (pkg : Name) (depth : Nat) (path : List Name) : BfsState :=
  bfsCore (get_dependencies src) cfg fuel st pkg depth path

/-- `bfs_build_reverse_dependency_graph` (lines 611-651): identical
traversal, the per-node list comes from
`self.reverse_dependency_graph.get(pkg, [])`. -/
def bfs_build_reverse_dependency_graph (reverse_graph : Graph) (cfg : BuildConfig)
    (fuel : Nat) (st : BfsState) (pkg : Name) (depth : Nat) (path : List Name) : BfsState :=
  bfsCore (fun n => lookupD reverse_graph n) cfg fuel st pkg depth path

/-- The inversion loop of `build_complete_dependency_graph`
(lines 558-561) and `TestRepository.build_reverse_dependencies`
(lines 358-364): for every edge `pkg -> dep` append `pkg` to the reverse
entry of `dep`. -/
def build_reverse_dependencies (g : Graph) : Graph :=
  g.foldl (fun acc e => e.2.foldl (fun a d2 => appendEntry a d2 e.1) acc) []

inductive WorkMode where
  | online
  | offline
deriving DecidableEq

/-- The configuration fields consumed by `run`. -/
structure RunConfig where
  work_mode : WorkMode
  reverse_mode : Bool
  max_depth : Option Nat
  filter_substring : Option Name
deriving DecidableEq

def unsupported_reverse_message : String :=
  "reverse dependencies are unavailable in online mode; use a test repository"

/-- `build_complete_dependency_graph` (lines 530-567): in online mode raise
(reverse analysis needs the full universe, which the registry client cannot
enumerate); offline, keep the full forward map and invert it. -/
def build_complete_dependency_graph (cfg : RunConfig) (repoAll : Graph) :
    Except String (Graph × Graph) :=
  if cfg.work_mode = WorkMode.online then
    Except.error unsupported_reverse_message
  else
    Except.ok (repoAll, build_reverse_dependencies repoAll)

/-- `run` (lines 739-784): reverse mode first materializes the complete
graph (an error there aborts the run before any reverse traversal), then
traverses the reverse index starting from a state whose map is the full
forward map; forward mode traverses the source directly from fresh state. -/
def run (cfg : RunConfig) (src : Name → Option (List Name)) (repoAll : Graph)
    (root : Name) (fuel : Nat) : Except String BfsState :=
  if cfg.reverse_mode then
    match build_complete_dependency_graph cfg repoAll with
    | Except.error e => Except.error e
    | Except.ok (fwd, rIdx) =>
      Except.ok (bfs_build_reverse_dependency_graph rIdx
        ⟨cfg.max_depth, cfg.filter_substring⟩ fuel ⟨fwd, [], false⟩ root 0 [])
  else
    Except.ok (bfs_build_dependency_graph src
      ⟨cfg.max_depth, cfg.filter_substring⟩ fuel initial_state root 0 [])

/-- `calculate_dependency_level` (lines 726-737): 0 for an empty recorded
list, otherwise one more than the running maximum over those dependencies
that are keys of the map.  `fuel` makes the recursion total; the program
relies on prior cycle detection for termination. -/
def calculate_dependency_level (g : Graph) : Nat → Name → Nat
  | 0, _ => 0
  | fuel + 1, package =>
    if (lookupD g package).isEmpty then 0
    else
      ((lookupD g package).foldl
        (fun m d2 =>
          if d2 ∈ graphKeys g then max m (calculate_dependency_level g fuel d2) else m)
        0) + 1

/-- `b` is reachable from `root` in exactly `n` recorded edges of `g`. -/
inductive ReachN (g : Graph) (root : Name) : Name → Nat → Prop
  | refl : ReachN g root root 0
  | step (a b : Name) (ds : List Name) (n : Nat) :
      ReachN g root a n → lookupG g a = some ds → b ∈ ds → ReachN g root b (n + 1)

/-- `r` ranks the recorded edges of `g` strictly downward: the standard
witness that `g` is acyclic. -/
def RankOk (g : Graph) (r : Name → Nat) : Prop :=
  ∀ p ∈ g, ∀ d2 ∈ p.2, d2 ∈ graphKeys g → r d2 < r p.1

/-- An adjacency map with no cycle among its recorded edges. -/
def AcyclicGraph (g : Graph) : Prop :=
  ∃ r : Name → Nat, RankOk g r

/-- The cycle fixture `A -> B, B -> C, C -> A`. -/
def cycleFixture : Graph :=
  load_test_repository "A -> B\nB -> C\nC -> A"

/-- A fixture whose only line carries a duplicated dependency. -/
def dupFixture : Graph :=
  load_test_repository "A -> B B"

/-- A two-node acyclic sample graph. -/
def chainFixture : Graph := [("A", ["B"]), ("B", [])]

/-- An explicit rank witnessing that `chainFixture` is acyclic. -/
def chainRank : Name → Nat := fun n => if n = "A" then 1 else 0

/-- A two-component sample universe used for the reverse-mode witnesses. -/
def revRepo : Graph := [("A", ["B"]), ("C", ["D"])]

/-- A source whose every lookup raises. -/
def srcFail : Name → Option (List Name) := fun _ => none

/-- Shape invariant maintained by the traversal when started from fresh
state: visited packages and map keys coincide, keys are unique, and every
recorded entry is exactly what the per-node lookup returned. -/
def GoodState (depsOf : Name → List Name) (s : BfsState) : Prop :=
  (∀ k, k ∈ graphKeys s.graph → k ∈ s.visited) ∧
  (∀ k, k ∈ s.visited → k ∈ graphKeys s.graph) ∧
  (graphKeys s.graph).Nodup ∧
  (∀ k v, lookupG s.graph k = some v → v = depsOf k)

/-- Number of recorded edges from `a` to `b` in `g` (multiplicity), summed
over all entries of the association list. -/
def edgeCount (g : Graph) (a b : Name) : Nat :=
  (g.map (fun p => if a = p.1 then List.count b p.2 else 0)).sum

/-! ### Generic fold lemmas -/

theorem foldl_preserve {α β : Type} (P : β → Prop) (f : β → α → β) :
    ∀ (l : List α) (b : β), P b → (∀ x a, P x → a ∈ l → P (f x a)) → P (l.foldl f b) := by
  intro l
  induction l with
  | nil => intro b hb _; simpa using hb
  | cons a as ih =>
    intro b hb hstep
    simp only [List.foldl_cons]
    exact ih (f b a) (hstep b a hb (by simp))
      (fun x a2 hx ha2 => hstep x a2 hx (by simp [ha2]))

theorem foldl_congr_fun {α β : Type} (f g : β → α → β) :
    ∀ (l : List α) (b : β), (∀ x a, a ∈ l → f x a = g x a) → l.foldl f b = l.foldl g b := by
  intro l
  induction l with
  | nil => intro b _; rfl
  | cons a as ih =>
    intro b h
    simp only [List.foldl_cons]
    rw [h b a (by simp)]
    exact ih (g b a) (fun x a2 ha2 => h x a2 (by simp [ha2]))

/-! ### Association-list lemmas -/

theorem graphKeys_nil : graphKeys [] = [] := rfl

theorem graphKeys_cons (p : Name × List Name) (rest : Graph) :
    graphKeys (p :: rest) = p.1 :: graphKeys rest := rfl

theorem lookupG_set_self (g : Graph) (k : Name) (v : List Name) :
    lookupG (setEntry g k v) k = some v := by
  induction g with
  | nil => simp [setEntry, lookupG]
  | cons p rest ih =>
    by_cases h : p.1 = k
    · simp [setEntry, lookupG, h]
    · simp [setEntry, lookupG, h, ih]

theorem lookupG_set_other (g : Graph) (k : Name) (v : List Name) (q : Name) (hq : q ≠ k) :
    lookupG (setEntry g k v) q = lookupG g q := by
  have hkq : ¬ k = q := fun h => hq h.symm
  induction g with
  | nil => simp [setEntry, lookupG, hkq]
  | cons p rest ih =>
    by_cases h : p.1 = k
    · have hpq : ¬ p.1 = q := by rw [h]; exact hkq
      simp [setEntry, lookupG, h, hpq, hkq]
    · by_cases h2 : p.1 = q
      · simp [setEntry, lookupG, h, h2, hq]
      · simp [setEntry, lookupG, h, h2, ih]

theorem mem_graphKeys (g : Graph) (k : Name) :
    k ∈ graphKeys g ↔ ∃ v, lookupG g k = some v := by
  induction g with
  | nil => simp [graphKeys_nil, lookupG]
  | cons p rest ih =>
    rw [graphKeys_cons]
    by_cases h : p.1 = k
    · simp [lookupG, h]
    · have hk : ¬ k = p.1 := fun h2 => h h2.symm
      simp only [List.mem_cons, lookupG, h, if_false]
      constructor
      · intro hmem
        rcases hmem with hmem | hmem
        · exact absurd hmem hk
        · exact ih.mp hmem
      · intro hex
        exact Or.inr (ih.mpr hex)

theorem graphKeys_set_new (g : Graph) (k : Name) (v : List Name) (hk : k ∉ graphKeys g) :
    graphKeys (setEntry g k v) = graphKeys g ++ [k] := by
  induction g with
  | nil => simp [setEntry, graphKeys_nil, graphKeys_cons]
  | cons p rest ih =>
    rw [graphKeys_cons] at hk
    have hp : ¬ p.1 = k := fun h => hk (by rw [h]; exact List.mem_cons_self _ _)
    have hrest : k ∉ graphKeys rest := fun h => hk (List.mem_cons_of_mem _ h)
    show graphKeys (if p.1 = k then (k, v) :: rest else p :: setEntry rest k v) = _
    rw [if_neg hp, graphKeys_cons, graphKeys_cons, ih hrest, List.cons_append]

theorem lookupG_some_mem (g : Graph) (k : Name) (v : List Name)
    (h : lookupG g k = some v) : (k, v) ∈ g := by
  induction g with
  | nil => simp [lookupG] at h
  | cons p rest ih =>
    obtain ⟨pk, pv⟩ := p
    by_cases hp : pk = k
    · simp [lookupG, hp] at h
      rw [hp, h]
      exact List.mem_cons_self _ _
    · simp only [lookupG, hp, if_false] at h
      exact List.mem_cons_of_mem _ (ih h)

theorem lookupD_appendEntry (g : Graph) (k : Name) (v : Name) (q : Name) :
    lookupD (appendEntry g k v) q = lookupD g q ++ (if q = k then [v] else []) := by
  induction g with
  | nil =>
    by_cases h : q = k
    · simp [appendEntry, lookupD, lookupG, h]
    · have hk : ¬ k = q := fun h2 => h h2.symm
      simp [appendEntry, lookupD, lookupG, h, hk]
  | cons p rest ih =>
    obtain ⟨pk, pv⟩ := p
    by_cases hp : pk = k
    · by_cases hq : q = k
      · have hpq : pk = q := by rw [hp, hq]
        simp [appendEntry, lookupD, lookupG, hp, hq, hpq]
      · have hpq : ¬ pk = q := by rw [hp]; exact fun h2 => hq h2.symm
        have hkq : ¬ k = q := fun h2 => hq h2.symm
        simp [appendEntry, lookupD, lookupG, hp, hq, hpq, hkq]
    · by_cases h2 : pk = q
      · have hqk : ¬ q = k := by rw [← h2]; exact hp
        simp [appendEntry, lookupD, lookupG, hp, h2, hqk]
      · simpa [appendEntry, lookupD, lookupG, hp, h2] using ih

/-! ### Traversal unfolding and monotonicity -/

theorem bfsCore_zero (depsOf : Name → List Name) (cfg : BuildConfig) (st : BfsState)
    (pkg : Name) (depth : Nat) (path : List Name) :
    bfsCore depsOf cfg 0 st pkg depth path = st := rfl

theorem bfsCore_succ (depsOf : Name → List Name) (cfg : BuildConfig) (fuel : Nat)
    (st : BfsState) (pkg : Name) (depth : Nat) (path : List Name) :
    bfsCore depsOf cfg (fuel + 1) st pkg depth path =
      if depth_limit_reached cfg.max_depth depth then st
      else if pkg ∈ path then ⟨st.graph, st.visited, true⟩
      else if should_skip_package cfg.filter_substring pkg then st
      else if pkg ∈ st.visited then st
      else
        (depsOf pkg).foldl
          (fun acc d2 => bfsCore depsOf cfg fuel acc d2 (depth + 1) (path ++ [pkg]))
          ⟨setEntry st.graph pkg (depsOf pkg), pkg :: st.visited, st.cycle_detected⟩ := rfl

theorem bfs_visited_mono (depsOf : Name → List Name) (cfg : BuildConfig) :
    ∀ (fuel : Nat) (st : BfsState) (pkg : Name) (depth : Nat) (path : List Name) (x : Name),
      x ∈ st.visited → x ∈ (bfsCore depsOf cfg fuel st pkg depth path).visited := by
  intro fuel
  induction fuel with
  | zero => intro st pkg depth path x hx; simpa [bfsCore_zero] using hx
  | succ n ih =>
    intro st pkg depth path x hx
    rw [bfsCore_succ]
    by_cases h1 : depth_limit_reached cfg.max_depth depth = true
    · simpa [h1] using hx
    by_cases h2 : pkg ∈ path
    · simpa [h1, h2] using hx
    by_cases h3 : should_skip_package cfg.filter_substring pkg = true
    · simpa [h1, h2, h3] using hx
    by_cases h4 : pkg ∈ st.visited
    · simpa [h1, h2, h3, h4] using hx
    · simp only [h1, h2, h3, h4, if_false, if_true, Bool.false_eq_true, ite_false]
      exact foldl_preserve (fun s => x ∈ s.visited) _ _ _ (by simp [hx])
        (fun s a hs _ => ih s a (depth + 1) (path ++ [pkg]) x hs)

theorem bfs_untouched (depsOf : Name → List Name) (cfg : BuildConfig) :
    ∀ (fuel : Nat) (st : BfsState) (pkg : Name) (depth : Nat) (path : List Name) (q : Name),
      q ∉ (bfsCore depsOf cfg fuel st pkg depth path).visited →
      lookupG (bfsCore depsOf cfg fuel st pkg depth path).graph q = lookupG st.graph q := by
  intro fuel
  induction fuel with
  | zero => intro st pkg depth path q _; rw [bfsCore_zero]
  | succ n ih =>
    intro st pkg depth path q hq
    rw [bfsCore_succ] at hq ⊢
    by_cases h1 : depth_limit_reached cfg.max_depth depth = true
    · simp [h1]
    by_cases h2 : pkg ∈ path
    · simp [h1, h2]
    by_cases h3 : should_skip_package cfg.filter_substring pkg = true
    · simp [h1, h2, h3]
    by_cases h4 : pkg ∈ st.visited
    · simp [h1, h2, h3, h4]
    · simp only [h1, h2, h3, h4, Bool.false_eq_true, if_false, if_true, ite_false] at hq ⊢
      have hq1 : q ∉ (⟨setEntry st.graph pkg (depsOf pkg), pkg :: st.visited,
          st.cycle_detected⟩ : BfsState).visited := by
        intro hmem
        exact hq (foldl_preserve (fun s => q ∈ s.visited) _ _ _ hmem
          (fun s a hs _ => bfs_visited_mono depsOf cfg n s a (depth + 1) (path ++ [pkg]) q hs))
      have hqpkg : q ≠ pkg := by
        intro h
        exact hq1 (by rw [h]; exact List.mem_cons_self _ _)
      have main :
          q ∈ ((depsOf pkg).foldl
              (fun acc d2 => bfsCore depsOf cfg n acc d2 (depth + 1) (path ++ [pkg]))
              ⟨setEntry st.graph pkg (depsOf pkg), pkg :: st.visited, st.cycle_detected⟩).visited ∨
          lookupG ((depsOf pkg).foldl
              (fun acc d2 => bfsCore depsOf cfg n acc d2 (depth + 1) (path ++ [pkg]))
              ⟨setEntry st.graph pkg (depsOf pkg), pkg :: st.visited, st.cycle_detected⟩).graph q =
            lookupG (setEntry st.graph pkg (depsOf pkg)) q := by
        refine foldl_preserve
          (fun s : BfsState =>
            q ∈ s.visited ∨ lookupG s.graph q = lookupG (setEntry st.graph pkg (depsOf pkg)) q)
          _ _ _ (Or.inr rfl) ?_
        intro s a hs _
        rcases hs with hs | hs
        · exact Or.inl (bfs_visited_mono depsOf cfg n s a (depth + 1) (path ++ [pkg]) q hs)
        · by_cases hmem : q ∈ (bfsCore depsOf cfg n s a (depth + 1) (path ++ [pkg])).visited
          · exact Or.inl hmem
          · exact Or.inr (by rw [ih s a (depth + 1) (path ++ [pkg]) q hmem, hs])
      rcases main with hmem | heq
      · exact absurd hmem hq
      · rw [heq]
        exact lookupG_set_other st.graph pkg (depsOf pkg) q hqpkg

theorem good_expand (depsOf : Name → List Name) (st : BfsState) (pkg : Name)
    (hst : GoodState depsOf st) (h4 : pkg ∉ st.visited) :
    GoodState depsOf
      ⟨setEntry st.graph pkg (depsOf pkg), pkg :: st.visited, st.cycle_detected⟩ ∧
    (∀ k v, lookupG st.graph k = some v →
      lookupG (setEntry st.graph pkg (depsOf pkg)) k = some v) ∧
    graphKeys (setEntry st.graph pkg (depsOf pkg)) = graphKeys st.graph ++ [pkg] := by
  have hkeys : pkg ∉ graphKeys st.graph := fun hmem => h4 (hst.1 pkg hmem)
  have hkeys_new :
      graphKeys (setEntry st.graph pkg (depsOf pkg)) = graphKeys st.graph ++ [pkg] :=
    graphKeys_set_new _ _ _ hkeys
  have pres1 : ∀ k v, lookupG st.graph k = some v →
      lookupG (setEntry st.graph pkg (depsOf pkg)) k = some v := by
    intro k v h
    have hk : k ≠ pkg := by
      intro he
      exact hkeys (by rw [← he]; exact (mem_graphKeys _ _).mpr ⟨v, h⟩)
    rw [lookupG_set_other _ _ _ _ hk]
    exact h
  refine ⟨⟨?_, ?_, ?_, ?_⟩, pres1, hkeys_new⟩
  · intro k hk
    rw [show (⟨setEntry st.graph pkg (depsOf pkg), pkg :: st.visited,
        st.cycle_detected⟩ : BfsState).graph = setEntry st.graph pkg (depsOf pkg) from rfl,
      hkeys_new] at hk
    rcases List.mem_append.mp hk with hk | hk
    · exact List.mem_cons_of_mem _ (hst.1 k hk)
    · simp only [List.mem_singleton] at hk
      rw [hk]; exact List.mem_cons_self _ _
  · intro k hk
    rcases List.mem_cons.mp hk with hk | hk
    · show k ∈ graphKeys (setEntry st.graph pkg (depsOf pkg))
      rw [hkeys_new, hk]
      exact List.mem_append.mpr (Or.inr (List.mem_singleton.mpr rfl))
    · show k ∈ graphKeys (setEntry st.graph pkg (depsOf pkg))
      rw [hkeys_new]
      exact List.mem_append.mpr (Or.inl (hst.2.1 k hk))
  · show (graphKeys (setEntry st.graph pkg (depsOf pkg))).Nodup
    rw [hkeys_new]
    refine List.nodup_append.mpr ⟨hst.2.2.1, List.nodup_singleton _, ?_⟩
    intro a ha ha2
    rw [List.mem_singleton.mp ha2] at ha
    exact hkeys ha
  · intro k v hlk
    by_cases hk : k = pkg
    · rw [hk] at hlk ⊢
      rw [show (⟨setEntry st.graph pkg (depsOf pkg), pkg :: st.visited,
          st.cycle_detected⟩ : BfsState).graph = setEntry st.graph pkg (depsOf pkg) from rfl,
        lookupG_set_self] at hlk
      exact (Option.some.inj hlk).symm
    · rw [show (⟨setEntry st.graph pkg (depsOf pkg), pkg :: st.visited,
          st.cycle_detected⟩ : BfsState).graph = setEntry st.graph pkg (depsOf pkg) from rfl,
        lookupG_set_other _ _ _ _ hk] at hlk
      exact hst.2.2.2 k v hlk

theorem bfs_good (depsOf : Name → List Name) (cfg : BuildConfig) :
    ∀ (fuel : Nat) (st : BfsState) (pkg : Name) (depth : Nat) (path : List Name),
      GoodState depsOf st →
      GoodState depsOf (bfsCore depsOf cfg fuel st pkg depth path) ∧
      (∀ k v, lookupG st.graph k = some v →
        lookupG (bfsCore depsOf cfg fuel st pkg depth path).graph k = some v) := by
  intro fuel
  induction fuel with
  | zero => intro st pkg depth path hst; rw [bfsCore_zero]; exact ⟨hst, fun k v h => h⟩
  | succ n ih =>
    intro st pkg depth path hst
    rw [bfsCore_succ]
    by_cases h1 : depth_limit_reached cfg.max_depth depth = true
    · simp only [h1, if_true]; exact ⟨hst, fun k v h => h⟩
    by_cases h2 : pkg ∈ path
    · simp only [h1, h2, Bool.false_eq_true, if_false, if_true, ite_false]
      exact ⟨hst, fun k v h => h⟩
    by_cases h3 : should_skip_package cfg.filter_substring pkg = true
    · simp only [h1, h2, h3, Bool.false_eq_true, if_false, if_true, ite_false]
      exact ⟨hst, fun k v h => h⟩
    by_cases h4 : pkg ∈ st.visited
    · simp only [h1, h2, h3, h4, Bool.false_eq_true, if_false, if_true, ite_false]
      exact ⟨hst, fun k v h => h⟩
    · simp only [h1, h2, h3, h4, Bool.false_eq_true, if_false, if_true, ite_false]
      obtain ⟨hst1, pres1, _⟩ := good_expand depsOf st pkg hst h4
      have main := foldl_preserve
        (fun s => GoodState depsOf s ∧
          (∀ k v, lookupG st.graph k = some v → lookupG s.graph k = some v))
        (fun acc d2 => bfsCore depsOf cfg n acc d2 (depth + 1) (path ++ [pkg]))
        (depsOf pkg)
        ⟨setEntry st.graph pkg (depsOf pkg), pkg :: st.visited, st.cycle_detected⟩
        ⟨hst1, pres1⟩
        (fun s a hs _ =>
          ⟨(ih s a (depth + 1) (path ++ [pkg]) hs.1).1,
           fun k v h => (ih s a (depth + 1) (path ++ [pkg]) hs.1).2 k v (hs.2 k v h)⟩)
      exact main

theorem reachN_mono (g g2 : Graph) (root k : Name) (n : Nat)
    (hpres : ∀ q v, lookupG g q = some v → lookupG g2 q = some v)
    (h : ReachN g root k n) : ReachN g2 root k n := by
  induction h with
  | refl => exact ReachN.refl
  | step a b ds m _ hlk hb ih2 => exact ReachN.step a b ds m ih2 (hpres a ds hlk) hb

theorem bfs_reach (depsOf : Name → List Name) (cfg : BuildConfig) (root : Name) (d : Nat)
    (hmd : cfg.max_depth = some d) (hd : 1 ≤ d) :
    ∀ (fuel : Nat) (st : BfsState) (pkg : Name) (depth : Nat) (path : List Name),
      GoodState depsOf st →
      (∀ k, k ∈ graphKeys st.graph → ∃ n, n ≤ d ∧ ReachN st.graph root k n) →
      ReachN st.graph root pkg depth →
      GoodState depsOf (bfsCore depsOf cfg fuel st pkg depth path) ∧
      (∀ k v, lookupG st.graph k = some v →
        lookupG (bfsCore depsOf cfg fuel st pkg depth path).graph k = some v) ∧
      (∀ k, k ∈ graphKeys (bfsCore depsOf cfg fuel st pkg depth path).graph →
        ∃ n, n ≤ d ∧ ReachN (bfsCore depsOf cfg fuel st pkg depth path).graph root k n) := by
  intro fuel
  induction fuel with
  | zero =>
    intro st pkg depth path hst hbound _
    rw [bfsCore_zero]
    exact ⟨hst, fun k v h => h, hbound⟩
  | succ n ih =>
    intro st pkg depth path hst hbound hreach
    rw [bfsCore_succ]
    by_cases h1 : depth_limit_reached cfg.max_depth depth = true
    · simp only [h1, if_true]; exact ⟨hst, fun k v h => h, hbound⟩
    by_cases h2 : pkg ∈ path
    · simp only [h1, h2, Bool.false_eq_true, if_false, if_true, ite_false]
      exact ⟨hst, fun k v h => h, hbound⟩
    by_cases h3 : should_skip_package cfg.filter_substring pkg = true
    · simp only [h1, h2, h3, Bool.false_eq_true, if_false, if_true, ite_false]
      exact ⟨hst, fun k v h => h, hbound⟩
    by_cases h4 : pkg ∈ st.visited
    · simp only [h1, h2, h3, h4, Bool.false_eq_true, if_false, if_true, ite_false]
      exact ⟨hst, fun k v h => h, hbound⟩
    · simp only [h1, h2, h3, h4, Bool.false_eq_true, if_false, if_true, ite_false]
      have hdepth : depth < d := by
        have hd0 : ¬ d = 0 := by omega
        simp only [depth_limit_reached, hmd, hd0, if_false, decide_eq_true_eq,
          Bool.false_eq_true, ite_false] at h1
        omega
      obtain ⟨hst1, pres1, hkeys_new⟩ := good_expand depsOf st pkg hst h4
      have hreach1 : ReachN (setEntry st.graph pkg (depsOf pkg)) root pkg depth :=
        reachN_mono _ _ _ _ _ pres1 hreach
      have hlk1 : lookupG (setEntry st.graph pkg (depsOf pkg)) pkg = some (depsOf pkg) :=
        lookupG_set_self _ _ _
      have hbound1 : ∀ k, k ∈ graphKeys (setEntry st.graph pkg (depsOf pkg)) →
          ∃ m, m ≤ d ∧ ReachN (setEntry st.graph pkg (depsOf pkg)) root k m := by
        intro k hk
        rw [hkeys_new] at hk
        rcases List.mem_append.mp hk with hk | hk
        · obtain ⟨m, hm, hr⟩ := hbound k hk
          exact ⟨m, hm, reachN_mono _ _ _ _ _ pres1 hr⟩
        · rw [List.mem_singleton.mp hk]
          exact ⟨depth, by omega, hreach1⟩
      have main := foldl_preserve
        (fun s => GoodState depsOf s ∧
          (∀ k v, lookupG (setEntry st.graph pkg (depsOf pkg)) k = some v →
            lookupG s.graph k = some v) ∧
          (∀ k, k ∈ graphKeys s.graph → ∃ m, m ≤ d ∧ ReachN s.graph root k m))
        (fun acc d2 => bfsCore depsOf cfg n acc d2 (depth + 1) (path ++ [pkg]))
        (depsOf pkg)
        ⟨setEntry st.graph pkg (depsOf pkg), pkg :: st.visited, st.cycle_detected⟩
        ⟨hst1, fun k v h => h, hbound1⟩
        ?_
      · refine ⟨main.1, ?_, main.2.2⟩
        intro k v h
        exact main.2.1 k v (pres1 k v h)
      · intro s a hs ha
        have hreach_s : ReachN s.graph root pkg depth :=
          reachN_mono _ _ _ _ _ hs.2.1 hreach1
        have hlk_s : lookupG s.graph pkg = some (depsOf pkg) :=
          hs.2.1 pkg (depsOf pkg) hlk1
        have hreach_a : ReachN s.graph root a (depth + 1) :=
          ReachN.step pkg a (depsOf pkg) depth hreach_s hlk_s ha
        obtain ⟨hg, hp, hb⟩ := ih s a (depth + 1) (path ++ [pkg]) hs.1 hs.2.2 hreach_a
        exact ⟨hg, fun k v h => hp k v (hs.2.1 k v h), hb⟩

theorem good_initial (depsOf : Name → List Name) : GoodState depsOf initial_state := by
  refine ⟨?_, ?_, ?_, ?_⟩ <;> simp [initial_state, graphKeys_nil, lookupG, GoodState]

/-! ### Counting lemmas for the reverse index -/

theorem count_lookupD_appendEntry (g : Graph) (k v a b : Name) :
    List.count a (lookupD (appendEntry g k v) b) =
    List.count a (lookupD g b) + (if b = k ∧ a = v then 1 else 0) := by
  rw [lookupD_appendEntry]
  by_cases hb : b = k
  · by_cases ha : a = v
    · simp [hb, ha, List.count_append]
    · simp [hb, ha, List.count_append, List.count_singleton', Ne.symm ha]
  · simp [hb, List.count_append]

theorem count_inner_fold (pkg : Name) (deps : List Name) :
    ∀ (m : Graph) (a b : Name),
      List.count a (lookupD (deps.foldl (fun acc d2 => appendEntry acc d2 pkg) m) b) =
      List.count a (lookupD m b) + (if a = pkg then List.count b deps else 0) := by
  induction deps with
  | nil => intro m a b; simp
  | cons d ds ih =>
    intro m a b
    simp only [List.foldl_cons]
    rw [ih (appendEntry m d pkg) a b, count_lookupD_appendEntry]
    by_cases ha : a = pkg
    · by_cases hd : b = d
      · simp [ha, hd, List.count_cons]
        omega
      · simp [ha, hd, List.count_cons, Ne.symm hd]
    · simp [ha]

theorem count_build_rev_aux (g : Graph) :
    ∀ (m : Graph) (a b : Name),
      List.count a
        (lookupD (g.foldl (fun acc e => e.2.foldl (fun acc2 d2 => appendEntry acc2 d2 e.1) acc) m) b) =
      List.count a (lookupD m b) + edgeCount g a b := by
  induction g with
  | nil => intro m a b; simp [edgeCount]
  | cons e es ih =>
    intro m a b
    simp only [List.foldl_cons]
    rw [ih, count_inner_fold e.1 e.2]
    simp only [edgeCount, List.map_cons, List.sum_cons]
    omega

theorem edgeCount_eq_zero (g : Graph) (a b : Name) (ha : a ∉ graphKeys g) :
    edgeCount g a b = 0 := by
  induction g with
  | nil => simp [edgeCount]
  | cons e es ih =>
    rw [graphKeys_cons] at ha
    have h1 : ¬ a = e.1 := fun h => ha (by rw [h]; exact List.mem_cons_self _ _)
    have h2 : a ∉ graphKeys es := fun h => ha (List.mem_cons_of_mem _ h)
    have ih2 := ih h2
    simp only [edgeCount, List.map_cons, List.sum_cons, h1, if_false]
    simp only [edgeCount] at ih2
    omega

theorem edgeCount_cons (e : Name × List Name) (es : Graph) (a b : Name) :
    edgeCount (e :: es) a b =
      (if a = e.1 then List.count b e.2 else 0) + edgeCount es a b := by
  simp [edgeCount]

theorem edgeCount_eq_count (g : Graph) (a b : Name) (hnd : (graphKeys g).Nodup) :
    edgeCount g a b = List.count b (lookupD g a) := by
  induction g with
  | nil => simp [edgeCount, lookupD, lookupG]
  | cons e es ih =>
    rw [graphKeys_cons, List.nodup_cons] at hnd
    by_cases ha : a = e.1
    · have hz : edgeCount es a b = 0 :=
        edgeCount_eq_zero es a b (by rw [ha]; exact hnd.1)
      have he : e.1 = a := ha.symm
      have hl : lookupD (e :: es) a = e.2 := by simp [lookupD, lookupG, he]
      rw [hl, edgeCount_cons, if_pos ha, hz]
      omega
    · have he : ¬ e.1 = a := fun h => ha h.symm
      have hl : lookupD (e :: es) a = lookupD es a := by simp [lookupD, lookupG, he]
      rw [hl, edgeCount_cons, if_neg ha, ih hnd.2]
      omega

theorem count_reverse_index (g : Graph) (hnd : (graphKeys g).Nodup) (a b : Name) :
    List.count a (lookupD (build_reverse_dependencies g) b) = List.count b (lookupD g a) := by
  unfold build_reverse_dependencies
  rw [count_build_rev_aux g [] a b]
  simp only [lookupD, lookupG, Option.getD_none, List.count_nil, Nat.zero_add]
  exact edgeCount_eq_count g a b hnd

/-! ### Level-computation lemmas -/

theorem level_zero (g : Graph) (pkg : Name) : calculate_dependency_level g 0 pkg = 0 := rfl

theorem level_succ (g : Graph) (fuel : Nat) (pkg : Name) :
    calculate_dependency_level g (fuel + 1) pkg =
      if (lookupD g pkg).isEmpty then 0
      else
        ((lookupD g pkg).foldl
          (fun m d2 =>
            if d2 ∈ graphKeys g then max m (calculate_dependency_level g fuel d2) else m)
          0) + 1 := rfl

theorem foldl_max_filter (p : Name → Prop) [DecidablePred p] (f : Name → Nat) :
    ∀ (l : List Name) (acc : Nat),
      l.foldl (fun m d2 => if p d2 then max m (f d2) else m) acc =
      ((l.filter (fun d2 => decide (p d2))).map f).foldl max acc := by
  intro l
  induction l with
  | nil => intro acc; rfl
  | cons x xs ih =>
    intro acc
    by_cases hx : p x
    · simp [List.foldl_cons, hx, List.filter_cons, ih]
    · simp [List.foldl_cons, hx, List.filter_cons, ih]

theorem rankOk_deps (g : Graph) (r : Name → Nat) (hr : RankOk g r) (pkg : Name)
    (hne : ¬ (lookupD g pkg).isEmpty = true) :
    ∀ d2 ∈ lookupD g pkg, d2 ∈ graphKeys g → r d2 < r pkg := by
  have hex : ∃ v, lookupG g pkg = some v := by
    cases h : lookupG g pkg with
    | none => exact absurd (by simp [lookupD, h, List.isEmpty_nil]) hne
    | some v => exact ⟨v, rfl⟩
  obtain ⟨v, hv⟩ := hex
  have hmem := lookupG_some_mem g pkg v hv
  have hvd : lookupD g pkg = v := by simp [lookupD, hv]
  intro d2 hd2 hk
  exact hr (pkg, v) hmem d2 (hvd ▸ hd2) hk

theorem level_stable_aux (g : Graph) (r : Name → Nat) (hr : RankOk g r) :
    ∀ (N : Nat) (pkg : Name) (f1 f2 : Nat), r pkg < N → r pkg < f1 → r pkg < f2 →
      calculate_dependency_level g f1 pkg = calculate_dependency_level g f2 pkg := by
  intro N
  induction N with
  | zero => intro pkg f1 f2 h _ _; exact absurd h (Nat.not_lt_zero _)
  | succ N ih =>
    intro pkg f1 f2 hN h1 h2
    cases f1 with
    | zero => omega
    | succ a =>
      cases f2 with
      | zero => omega
      | succ b =>
        rw [level_succ, level_succ]
        by_cases hemp : (lookupD g pkg).isEmpty = true
        · simp [hemp]
        · simp only [hemp, Bool.false_eq_true, if_false, ite_false]
          have hrk := rankOk_deps g r hr pkg hemp
          congr 1
          refine foldl_congr_fun _ _ (lookupD g pkg) 0 ?_
          intro m d2 hd2
          by_cases hk : d2 ∈ graphKeys g
          · have hlt : r d2 < r pkg := hrk d2 hd2 hk
            have : calculate_dependency_level g a d2 = calculate_dependency_level g b d2 :=
              ih d2 a b (by omega) (by omega) (by omega)
            simp [hk, this]
          · simp [hk]

theorem level_stable (g : Graph) (r : Name → Nat) (hr : RankOk g r) (pkg : Name)
    (f1 f2 : Nat) (h1 : r pkg < f1) (h2 : r pkg < f2) :
    calculate_dependency_level g f1 pkg = calculate_dependency_level g f2 pkg :=
  level_stable_aux g r hr (r pkg + 1) pkg f1 f2 (Nat.lt_succ_self _) h1 h2

theorem level_unfold_rec (g : Graph) (r : Name → Nat) (hr : RankOk g r) (pkg : Name)
    (fuel : Nat) (hf : r pkg < fuel) :
    calculate_dependency_level g fuel pkg =
      if (lookupD g pkg).isEmpty then 0
      else
        (((lookupD g pkg).filter (fun d2 => decide (d2 ∈ graphKeys g))).map
          (fun d2 => calculate_dependency_level g fuel d2)).foldl max 0 + 1 := by
  cases fuel with
  | zero => omega
  | succ n =>
    rw [level_succ]
    by_cases hemp : (lookupD g pkg).isEmpty = true
    · simp [hemp]
    · simp only [hemp, Bool.false_eq_true, if_false, ite_false]
      have hrk := rankOk_deps g r hr pkg hemp
      congr 1
      rw [foldl_congr_fun
        (fun m d2 =>
          if d2 ∈ graphKeys g then max m (calculate_dependency_level g n d2) else m)
        (fun m d2 =>
          if d2 ∈ graphKeys g then max m (calculate_dependency_level g (n + 1) d2) else m)
        (lookupD g pkg) 0 ?_]
      · exact foldl_max_filter (fun d2 => d2 ∈ graphKeys g)
          (fun d2 => calculate_dependency_level g (n + 1) d2) (lookupD g pkg) 0
      · intro m d2 hd2
        by_cases hk : d2 ∈ graphKeys g
        · have hlt : r d2 < r pkg := hrk d2 hd2 hk
          have : calculate_dependency_level g n d2 = calculate_dependency_level g (n + 1) d2 :=
            level_stable g r hr d2 n (n + 1) (by omega) (by omega)
          simp [hk, this]
        · simp [hk]

theorem chainRank_ok : RankOk chainFixture chainRank := by
  intro p hp d2 hd2 _
  simp only [chainFixture, List.mem_cons, List.not_mem_nil, or_false] at hp
  rcases hp with hp | hp
  · subst hp
    have h2 : d2 = "B" := by simpa using hd2
    subst h2
    decide
  · subst hp
    exact absurd hd2 (by simp)

/-! ### Claim theorems -/

/-- C1: the spec says a node whose name does not contain the filter
(case-insensitively) is skipped while a matching node is kept and
expanded.  The code does the opposite: `should_skip_package` returns true
exactly when the lower-cased name CONTAINS the lower-cased filter, so on
the fixture `A -> B, B -> C` with filter "b" the matching node `B` is
skipped and the non-matching node `A` is kept and expanded, leaving
`{A: [B]}`.  (Stages 1-2 of the same program keep matching packages and
print that only packages containing the filter will be shown, so the spec
reflects the documented intent and stage 4 inverted it.) -/
theorem c1_filter_polarity_inverted :
    should_skip_package (some "b") "B" = true ∧
    should_skip_package (some "b") "A" = false ∧
    (bfs_build_dependency_graph (test_repo_source (load_test_repository "A -> B\nB -> C"))
        ⟨none, some "b"⟩ 10 initial_state "A" 0 []).graph = [("A", ["B"])] ∧
    "B" ∉ graphKeys (bfs_build_dependency_graph
        (test_repo_source (load_test_repository "A -> B\nB -> C"))
        ⟨none, some "b"⟩ 10 initial_state "A" 0 []).graph := by
  refine ⟨by decide, by decide, by decide, by decide⟩

/-- C2 counterexample: on the fixture `A -> B, B -> C, C -> A` the forward
build from `A` does NOT yield `{A:[B], B:[C]}` with no entry for `C`: the
node `C` is recorded with its full dependency list `[A]`, i.e. the
cycle-closing edge is present in the map. -/
theorem c2_cycle_counterexample :
    lookupG (bfs_build_dependency_graph (test_repo_source cycleFixture)
        ⟨none, none⟩ 10 initial_state "A" 0 []).graph "C" = some ["A"] ∧
    (bfs_build_dependency_graph (test_repo_source cycleFixture)
        ⟨none, none⟩ 10 initial_state "A" 0 []).graph ≠ [("A", ["B"]), ("B", ["C"])] := by
  refine ⟨by decide, by decide⟩

/-- C2 amended: on the fixture `A -> B, B -> C, C -> A` the forward build
from `A` yields exactly `{A:[B], B:[C], C:[A]}` and sets `cycleDetected`;
the path check only stops re-expansion of the repeated node `A`, after the
closing edge `C -> A` has already been recorded. -/
theorem c2_cycle_amended :
    (bfs_build_dependency_graph (test_repo_source cycleFixture)
        ⟨none, none⟩ 10 initial_state "A" 0 []).graph =
      [("A", ["B"]), ("B", ["C"]), ("C", ["A"])] ∧
    (bfs_build_dependency_graph (test_repo_source cycleFixture)
        ⟨none, none⟩ 10 initial_state "A" 0 []).cycle_detected = true := by
  refine ⟨by decide, by decide⟩

/-- C3 counterexample: the plain-text fixture parser does not remove
duplicates: on the one-line fixture `A -> B B` the forward build records
`A` with the duplicated list `[B, B]`. -/
theorem c3_dedup_counterexample :
    lookupG (bfs_build_dependency_graph (test_repo_source dupFixture)
        ⟨none, none⟩ 5 initial_state "A" 0 []).graph "A" = some ["B", "B"] ∧
    ¬ (["B", "B"] : List Name).Nodup := by
  refine ⟨by decide, by decide⟩

/-- C3 amended: for every node recorded by the forward build over a
plain-text fixture, the stored dependency list is exactly the source's
token list — order preserved and duplicates kept (no deduplication). -/
theorem c3_recorded_list_verbatim (content : String) (cfg : BuildConfig) (fuel : Nat)
    (root k : Name) (v : List Name)
    (h : lookupG (bfs_build_dependency_graph (test_repo_source (load_test_repository content))
        cfg fuel initial_state root 0 []).graph k = some v) :
    v = get_package_dependencies (load_test_repository content) k := by
  have hg := (bfs_good (get_dependencies (test_repo_source (load_test_repository content)))
    cfg fuel initial_state root 0 [] (good_initial _)).1
  exact hg.2.2.2 k v h

/-- C3 witness: instantiating the amended claim on the fixture `A -> B B`
at the key `A`. -/
theorem c3_recorded_list_verbatim_witness :
    (["B", "B"] : List Name) =
      get_package_dependencies (load_test_repository "A -> B B") "A" :=
  c3_recorded_list_verbatim "A -> B B" ⟨none, none⟩ 5 "A" "A" ["B", "B"] (by decide)

/-- C9: the forward build is idempotent on its state: running the
traversal a second time with the same root, depth limit and filter, over
the state produced by the first run, returns that state unchanged (the
root is either filtered out again, depth-limited again, or already
visited), so the two runs yield identical adjacency maps, order
included. -/
theorem c9_forward_idempotent (src : Name → Option (List Name)) (cfg : BuildConfig)
    (root : Name) (fuel : Nat) :
    bfs_build_dependency_graph src cfg fuel
      (bfs_build_dependency_graph src cfg fuel initial_state root 0 []) root 0 [] =
    bfs_build_dependency_graph src cfg fuel initial_state root 0 [] := by
  unfold bfs_build_dependency_graph
  cases fuel with
  | zero => rfl
  | succ n =>
    by_cases h1 : depth_limit_reached cfg.max_depth 0 = true
    · rw [bfsCore_succ]
      simp [h1]
    by_cases h3 : should_skip_package cfg.filter_substring root = true
    · rw [bfsCore_succ]
      simp [h1, h3]
    · have hmem : root ∈
          (bfsCore (get_dependencies src) cfg (n + 1) initial_state root 0 []).visited := by
        rw [bfsCore_succ]
        simp only [h1, h3, List.not_mem_nil, Bool.false_eq_true, if_false, if_true,
          ite_false, initial_state]
        exact foldl_preserve (fun s : BfsState => root ∈ s.visited) _ _ _
          (List.mem_cons_self _ _)
          (fun s a hs _ => bfs_visited_mono (get_dependencies src) cfg n s a 1 [root] root hs)
      conv in bfsCore _ _ (n + 1)
          (bfsCore _ _ (n + 1) initial_state root 0 []) root 0 [] => rw [bfsCore_succ]
      simp [h1, h3, hmem]

/-- C4: with `maxDepth = d` (a positive integer) set, every key of the map
produced by the forward build from fresh state is reachable from the root
along recorded edges by a path of length at most `d`: a node reached at
depth at least `d` is neither added nor expanded. -/
theorem c4_depth_bound (src : Name → Option (List Name)) (fsub : Option Name) (d : Nat)
    (hd : 1 ≤ d) (root : Name) (fuel : Nat) (k : Name)
    (hk : k ∈ graphKeys (bfs_build_dependency_graph src ⟨some d, fsub⟩ fuel
        initial_state root 0 []).graph) :
    ∃ n, n ≤ d ∧ ReachN (bfs_build_dependency_graph src ⟨some d, fsub⟩ fuel
        initial_state root 0 []).graph root k n := by
  have h := bfs_reach (get_dependencies src) ⟨some d, fsub⟩ root d rfl hd fuel
    initial_state root 0 [] (good_initial _)
    (by intro k2 hk2; exact absurd hk2 (by simp [initial_state, graphKeys_nil]))
    ReachN.refl
  exact h.2.2 k hk

/-- C4 witness: on the fixture `A -> B` with `maxDepth = 3`, the recorded
key `B` lies within 3 recorded edges of the root `A`. -/
theorem c4_depth_bound_witness :
    ∃ n, n ≤ 3 ∧ ReachN (bfs_build_dependency_graph (test_repo_source chainFixture)
        ⟨some 3, none⟩ 5 initial_state "A" 0 []).graph "A" "B" n :=
  c4_depth_bound (test_repo_source chainFixture) none 3 (by decide) "A" 5 "B" (by decide)

/-- C5: (1) the reverse index is the exact multiplicity-preserving
inversion of a forward adjacency map with unique keys: `a` occurs in the
reverse entry of `b` exactly as often as `b` occurs in `a`'s forward list;
(2) for an acyclic fixture universe, inverting the map built by the plain
forward build agrees with the reverse index of the whole universe on
every package recorded by the forward build (and is empty elsewhere). -/
theorem c5_reverse_index_inversion :
    (∀ (g : Graph), (graphKeys g).Nodup → ∀ a b : Name,
      List.count a (lookupD (build_reverse_dependencies g) b) =
        List.count b (lookupD g a)) ∧
    (∀ (repo : Graph) (root : Name) (fuel : Nat),
      (graphKeys repo).Nodup → AcyclicGraph repo → ∀ a b : Name,
        List.count a (lookupD (build_reverse_dependencies
          (bfs_build_dependency_graph (test_repo_source repo) ⟨none, none⟩ fuel
            initial_state root 0 []).graph) b) =
        if a ∈ graphKeys (bfs_build_dependency_graph (test_repo_source repo)
            ⟨none, none⟩ fuel initial_state root 0 []).graph
        then List.count a (lookupD (build_reverse_dependencies repo) b)
        else 0) := by
  constructor
  · exact fun g hnd a b => count_reverse_index g hnd a b
  · intro repo root fuel hnd _hac a b
    simp only [bfs_build_dependency_graph]
    have hg := (bfs_good (get_dependencies (test_repo_source repo)) ⟨none, none⟩ fuel
      initial_state root 0 [] (good_initial _)).1
    rw [count_reverse_index _ hg.2.2.1 a b]
    by_cases ha : a ∈ graphKeys (bfsCore (get_dependencies (test_repo_source repo))
        ⟨none, none⟩ fuel initial_state root 0 []).graph
    · obtain ⟨v, hv⟩ := (mem_graphKeys _ _).mp ha
      have hva : v = get_dependencies (test_repo_source repo) a := hg.2.2.2 a v hv
      have h2 : lookupD (bfsCore (get_dependencies (test_repo_source repo))
          ⟨none, none⟩ fuel initial_state root 0 []).graph a = lookupD repo a := by
        simp only [lookupD, hv, Option.getD_some]
        rw [hva]
        rfl
      rw [if_pos ha, count_reverse_index repo hnd a b, h2]
    · have hnone : lookupG (bfsCore (get_dependencies (test_repo_source repo))
          ⟨none, none⟩ fuel initial_state root 0 []).graph a = none := by
        cases h : lookupG (bfsCore (get_dependencies (test_repo_source repo))
            ⟨none, none⟩ fuel initial_state root 0 []).graph a with
        | none => rfl
        | some v => exact absurd ((mem_graphKeys _ _).mpr ⟨v, h⟩) ha
      rw [if_neg ha]
      simp [lookupD, hnone]

/-- C5 witness: both halves instantiated on the acyclic fixture
`A -> B`. -/
theorem c5_reverse_index_inversion_witness :
    List.count "A" (lookupD (build_reverse_dependencies chainFixture) "B") =
      List.count "B" (lookupD chainFixture "A") ∧
    List.count "A" (lookupD (build_reverse_dependencies
      (bfs_build_dependency_graph (test_repo_source chainFixture) ⟨none, none⟩ 5
        initial_state "A" 0 []).graph) "B") =
      (if "A" ∈ graphKeys (bfs_build_dependency_graph (test_repo_source chainFixture)
          ⟨none, none⟩ 5 initial_state "A" 0 []).graph
       then List.count "A" (lookupD (build_reverse_dependencies chainFixture) "B")
       else 0) :=
  ⟨c5_reverse_index_inversion.1 chainFixture (by decide) "A" "B",
   c5_reverse_index_inversion.2 chainFixture "A" 5 (by decide)
     ⟨chainRank, chainRank_ok⟩ "A" "B"⟩

/-- C6: requesting reverse mode against the online registry source makes
`run` abort with the unsupported-operation error before any reverse
traversal state is produced, whereas a forward run never aborts — in
particular not on per-node lookup failures. -/
theorem c6_reverse_online_unsupported (cfg : RunConfig) (src : Name → Option (List Name))
    (repoAll : Graph) (root : Name) (fuel : Nat)
    (hon : cfg.work_mode = WorkMode.online) (hrev : cfg.reverse_mode = true) :
    run cfg src repoAll root fuel = Except.error unsupported_reverse_message ∧
    (∀ (cfg2 : RunConfig) (src2 : Name → Option (List Name)) (repo2 : Graph)
        (root2 : Name) (fuel2 : Nat), cfg2.reverse_mode = false →
      ∃ st, run cfg2 src2 repo2 root2 fuel2 = Except.ok st) := by
  constructor
  · simp [run, hrev, build_complete_dependency_graph, hon]
  · intro cfg2 src2 repo2 root2 fuel2 h2
    exact ⟨bfs_build_dependency_graph src2 ⟨cfg2.max_depth, cfg2.filter_substring⟩ fuel2
      initial_state root2 0 [], by simp [run, h2]⟩

/-- C6 witness: a concrete online reverse-mode run returns the
unsupported-operation error. -/
theorem c6_reverse_online_unsupported_witness :
    run ⟨WorkMode.online, true, none, none⟩ srcFail [] "A" 3 =
      Except.error unsupported_reverse_message :=
  (c6_reverse_online_unsupported ⟨WorkMode.online, true, none, none⟩ srcFail [] "A" 3
    rfl rfl).1

/-- C7: when the source raises for a single node, that node contributes an
empty dependency list; the whole traversal is unchanged from one whose
source answers `[]` for that node (so it continues rather than aborting),
and if the failing node is visited it is recorded with an empty list. -/
theorem c7_lookup_failure_tolerated (src : Name → Option (List Name)) (x : Name)
    (hx : src x = none) :
    get_dependencies src x = [] ∧
    (∀ (cfg : BuildConfig) (fuel : Nat) (st : BfsState) (pkg : Name) (depth : Nat)
        (path : List Name),
      bfs_build_dependency_graph src cfg fuel st pkg depth path =
        bfs_build_dependency_graph (fun n => if n = x then some [] else src n)
          cfg fuel st pkg depth path) ∧
    (∀ (cfg : BuildConfig) (fuel : Nat) (root : Name),
      x ∈ (bfs_build_dependency_graph src cfg fuel initial_state root 0 []).visited →
      lookupG (bfs_build_dependency_graph src cfg fuel initial_state root 0 []).graph x =
        some []) := by
  have hdeps : get_dependencies src x = [] := by simp [get_dependencies, hx]
  refine ⟨hdeps, ?_, ?_⟩
  · intro cfg fuel st pkg depth path
    unfold bfs_build_dependency_graph
    have hfun : get_dependencies src =
        get_dependencies (fun n => if n = x then some [] else src n) := by
      funext n
      by_cases hn : n = x
      · rw [hn, hdeps]; simp [get_dependencies]
      · simp [get_dependencies, hn]
    rw [hfun]
  · intro cfg fuel root hvis
    have hg := (bfs_good (get_dependencies src) cfg fuel initial_state root 0 []
      (good_initial _)).1
    have hkey : x ∈ graphKeys
        (bfs_build_dependency_graph src cfg fuel initial_state root 0 []).graph :=
      hg.2.1 x hvis
    obtain ⟨v, hv⟩ := (mem_graphKeys _ _).mp hkey
    have hvv : v = get_dependencies src x := hg.2.2.2 x v hv
    rw [hv, hvv, hdeps]

/-- C7 witness: with a source that fails on every lookup, the root is
visited, recorded with an empty list, and the lookup degrades to `[]`. -/
theorem c7_lookup_failure_tolerated_witness :
    get_dependencies srcFail "A" = [] ∧
    lookupG (bfs_build_dependency_graph srcFail ⟨none, none⟩ 3
      initial_state "A" 0 []).graph "A" = some [] := by
  obtain ⟨h1, _h2, h3⟩ := c7_lookup_failure_tolerated srcFail "A" rfl
  exact ⟨h1, h3 ⟨none, none⟩ 3 "A" (by decide)⟩

/-- C8: on a map that is acyclic (witnessed by a strictly decreasing rank
on recorded edges), the level computation terminates — its value is
independent of the fuel once the fuel exceeds the node's rank — and
satisfies the documented recurrence: 0 for an empty recorded list,
otherwise one plus the maximum level over those dependencies that are
themselves keys of the map. -/
theorem c8_dependency_level (g : Graph) (r : Name → Nat) (hr : RankOk g r) (pkg : Name)
    (fuel1 fuel2 : Nat) (h1 : r pkg < fuel1) (h2 : r pkg < fuel2) :
    calculate_dependency_level g fuel1 pkg = calculate_dependency_level g fuel2 pkg ∧
    calculate_dependency_level g fuel1 pkg =
      (if (lookupD g pkg).isEmpty then 0
       else (((lookupD g pkg).filter (fun d2 => decide (d2 ∈ graphKeys g))).map
         (fun d2 => calculate_dependency_level g fuel1 d2)).foldl max 0 + 1) :=
  ⟨level_stable g r hr pkg fuel1 fuel2 h1 h2, level_unfold_rec g r hr pkg fuel1 h1⟩

/-- C8 witness: instantiated on the acyclic map `A -> B, B -> []` with an
explicit rank. -/
theorem c8_dependency_level_witness :
    calculate_dependency_level chainFixture 3 "A" =
      calculate_dependency_level chainFixture 7 "A" ∧
    calculate_dependency_level chainFixture 3 "A" =
      (if (lookupD chainFixture "A").isEmpty then 0
       else (((lookupD chainFixture "A").filter
           (fun d2 => decide (d2 ∈ graphKeys chainFixture))).map
         (fun d2 => calculate_dependency_level chainFixture 3 d2)).foldl max 0 + 1) :=
  c8_dependency_level chainFixture chainRank chainRank_ok "A" 3 7 (by decide) (by decide)

/-- C10: in an offline reverse-mode run, the traversal state starts from
the full forward map of the fixture universe and only entries of visited
nodes are overwritten with dependent lists; every universe package not
visited by the reverse traversal is still a key of the final map, bound to
its forward dependency list. -/
theorem c10_reverse_preserves_unvisited (cfg : RunConfig) (src : Name → Option (List Name))
    (repoAll : Graph) (root : Name) (fuel : Nat) (st : BfsState) (q : Name)
    (hrev : cfg.reverse_mode = true) (hoff : cfg.work_mode = WorkMode.offline)
    (hrun : run cfg src repoAll root fuel = Except.ok st)
    (hq : q ∈ graphKeys repoAll) (hnv : q ∉ st.visited) :
    ∃ v, lookupG repoAll q = some v ∧ lookupG st.graph q = some v := by
  have hne : ¬ cfg.work_mode = WorkMode.online := by
    rw [hoff]; exact fun h => WorkMode.noConfusion h
  simp only [run, hrev, if_true, build_complete_dependency_graph, hne, if_false,
    ite_false, Except.ok.injEq] at hrun
  obtain ⟨v, hv⟩ := (mem_graphKeys _ _).mp hq
  refine ⟨v, hv, ?_⟩
  rw [← hrun] at hnv ⊢
  have hunt := bfs_untouched (fun n => lookupD (build_reverse_dependencies repoAll) n)
    ⟨cfg.max_depth, cfg.filter_substring⟩ fuel ⟨repoAll, [], false⟩ root 0 [] q hnv
  rw [show bfs_build_reverse_dependency_graph (build_reverse_dependencies repoAll)
      ⟨cfg.max_depth, cfg.filter_substring⟩ fuel ⟨repoAll, [], false⟩ root 0 [] =
      bfsCore (fun n => lookupD (build_reverse_dependencies repoAll) n)
        ⟨cfg.max_depth, cfg.filter_substring⟩ fuel ⟨repoAll, [], false⟩ root 0 [] from rfl,
    hunt]
  exact hv

/-- C10 witness: in the universe `A -> B, C -> D`, the reverse run from
`B` never visits `C`, whose entry keeps its forward list `[D]`. -/
theorem c10_reverse_preserves_unvisited_witness :
    ∃ v, lookupG revRepo "C" = some v ∧
      lookupG (bfs_build_reverse_dependency_graph (build_reverse_dependencies revRepo)
        ⟨none, none⟩ 6 ⟨revRepo, [], false⟩ "B" 0 []).graph "C" = some v := by
  refine c10_reverse_preserves_unvisited ⟨WorkMode.offline, true, none, none⟩ srcFail
    revRepo "B" 6 (bfs_build_reverse_dependency_graph (build_reverse_dependencies revRepo)
      ⟨none, none⟩ 6 ⟨revRepo, [], false⟩ "B" 0 []) "C" rfl rfl ?_ (by decide) (by decide)
  simp [run, build_complete_dependency_graph]

end DepViz
